import Mathlib

/-!
Verification of the object-permission reconciliation core of
`guardian/forms.py` (django-guardian).

The reconciliation engine is `save_obj_perms`:

    perms = self.cleaned_data[self.get_obj_perms_field_name()]
    model_perms = [c[0] for c in self.get_obj_perms_field_choices()]
    to_remove = set(model_perms) - set(perms)
    for perm in to_remove:
        remove_perm(perm, self.user, self.obj)
    for perm in perms:
        assign(perm, self.user, self.obj)

We embed the catalog, the sequence of grant-store calls the engine emits
(`reconcileTrace`), and the resulting stored grant set under an idempotent
grant store (`save_obj_perms`).  The grant store itself
(`guardian.shortcuts.assign` / `remove_perm`) is outside the analysed
source, so its single-call semantics is modelled from the spec (§4.2).
-/

namespace Guardian

/-- A permission of the catalog: a `(codename, name)` pair, as produced by
`get_perms_for_model` and consumed by `get_obj_perms_field_choices`. -/
structure Permission where
  codename : String
  name : String
deriving DecidableEq, Repr

/-- `get_obj_perms_field_choices` (forms.py line 62):
`[(p.codename, p.name) for p in get_perms_for_model(self.obj)]`. -/
def get_obj_perms_field_choices (catalog : List Permission) : List (String × String) :=
  catalog.map (fun p => (p.codename, p.name))

/-- `model_perms = [c[0] for c in self.get_obj_perms_field_choices()]`
(forms.py line 138). -/
def model_perms (catalog : List Permission) : List String :=
  (get_obj_perms_field_choices catalog).map Prod.fst

/-- `to_remove = set(model_perms) - set(perms)` (forms.py line 140): the
distinct codenames of the catalog that are not in the submitted desired
list.  Python iterates the set in an unspecified order; we fix one concrete
enumeration, with each element occurring exactly once. -/
def to_remove (mp desired : List String) : List String :=
  (mp.filter (fun c => !(desired.contains c))).dedup

/-- A single call issued to the grant store for the fixed
(principal, object) pair of one `save_obj_perms` invocation. -/
inductive StoreOp where
  | remove (codename : String)
  | assign (codename : String)
deriving DecidableEq, Repr

/-- The sequence of grant-store calls emitted by `save_obj_perms`
(forms.py lines 140-145): first one `remove_perm` per element of
`to_remove`, then one `assign` per element of the submitted list. -/
def reconcileTrace (mp desired : List String) : List StoreOp :=
  (to_remove mp desired).map StoreOp.remove ++ desired.map StoreOp.assign

/-- Modelled from the spec: `guardian.shortcuts.assign` is not under the
analysed source; per §4.2 it is idempotent — assigning an already-held
grant is a no-op, otherwise the grant is created. -/
def assignGrant (codename : String) (s : List String) : List String :=
  if codename ∈ s then s else s ++ [codename]

/-- Modelled from the spec: `guardian.shortcuts.remove_perm` is not under
the analysed source; per §4.2 it is idempotent — the grant for `codename`
is deleted, removing an absent grant is a no-op. -/
def removeGrant (codename : String) (s : List String) : List String :=
  s.filter (fun c => c != codename)

/-- Effect of one store call on the stored grant set of the pair. -/
def applyOp (s : List String) : StoreOp → List String
  | StoreOp.remove c => removeGrant c s
  | StoreOp.assign c => assignGrant c s

/-- Stored grant set after a sequence of store calls all succeed. -/
def runState (ops : List StoreOp) (s : List String) : List String :=
  ops.foldl applyOp s

/-- `UserObjectPermissionsForm.save_obj_perms` (forms.py lines 130-145) as
a transformer of the stored grant set of the (principal, object) pair:
run the emitted trace against the idempotent grant store. -/
def save_obj_perms (catalog : List Permission) (desired : List String)
    (s : List String) : List String :=
  runState (reconcileTrace (model_perms catalog) desired) s

/-- Execution of a trace against a grant store whose individual calls may
fail (`fails op = true` means the call raises).  The Python `for` loops
stop at the first raising call: the state reached so far is kept, the
failing call is surfaced, no later call is issued. -/
def runStateE (fails : StoreOp → Bool) : List StoreOp → List String →
    List String × Option StoreOp
  | [], s => (s, none)
  | op :: rest, s =>
    if fails op then (s, some op)
    else runStateE fails rest (applyOp s op)

/-- Codenames carried by the remove calls of a trace, in order. -/
def removeCodes (ops : List StoreOp) : List String :=
  ops.filterMap (fun op => match op with
    | StoreOp.remove c => some c
    | StoreOp.assign _ => none)

/-- Codenames carried by the assign calls of a trace, in order. -/
def assignCodes (ops : List StoreOp) : List String :=
  ops.filterMap (fun op => match op with
    | StoreOp.remove _ => none
    | StoreOp.assign c => some c)

/-- Whether a store call is a remove. -/
def StoreOp.isRemove : StoreOp → Bool
  | StoreOp.remove _ => true
  | StoreOp.assign _ => false

/-- Whether a store call is an assign. -/
def StoreOp.isAssign : StoreOp → Bool
  | StoreOp.remove _ => false
  | StoreOp.assign _ => true

lemma mem_model_perms (catalog : List Permission) (c : String) :
    c ∈ model_perms catalog ↔ ∃ p ∈ catalog, p.codename = c := by
  simp [model_perms, get_obj_perms_field_choices]

lemma mem_to_remove (mp desired : List String) (c : String) :
    c ∈ to_remove mp desired ↔ c ∈ mp ∧ c ∉ desired := by
  simp [to_remove, List.mem_dedup, List.mem_filter]

lemma nodup_to_remove (mp desired : List String) :
    (to_remove mp desired).Nodup :=
  List.nodup_dedup _

lemma mem_removeGrant (c a : String) (s : List String) :
    a ∈ removeGrant c s ↔ a ∈ s ∧ a ≠ c := by
  simp [removeGrant, List.mem_filter]

lemma mem_assignGrant (c a : String) (s : List String) :
    a ∈ assignGrant c s ↔ a ∈ s ∨ a = c := by
  unfold assignGrant
  by_cases h : c ∈ s
  · simp only [if_pos h]
    constructor
    · exact Or.inl
    · rintro (hs | rfl)
      · exact hs
      · exact h
  · simp [if_neg h]

lemma runState_append (l₁ l₂ : List StoreOp) (s : List String) :
    runState (l₁ ++ l₂) s = runState l₂ (runState l₁ s) := by
  simp [runState, List.foldl_append]

lemma mem_runState_removes (L : List String) (s : List String) (a : String) :
    a ∈ runState (L.map StoreOp.remove) s ↔ a ∈ s ∧ a ∉ L := by
  induction L generalizing s with
  | nil => simp [runState]
  | cons c rest ih =>
    simp only [List.map_cons, runState, List.foldl_cons] at *
    rw [show (applyOp s (StoreOp.remove c)) = removeGrant c s from rfl]
    rw [ih]
    rw [mem_removeGrant]
    constructor
    · rintro ⟨⟨hs, hne⟩, hnr⟩
      exact ⟨hs, by simp [hne, hnr]⟩
    · rintro ⟨hs, hn⟩
      simp only [List.mem_cons, not_or] at hn
      exact ⟨⟨hs, hn.1⟩, hn.2⟩

lemma mem_runState_assigns (L : List String) (s : List String) (a : String) :
    a ∈ runState (L.map StoreOp.assign) s ↔ a ∈ s ∨ a ∈ L := by
  induction L generalizing s with
  | nil => simp [runState]
  | cons c rest ih =>
    simp only [List.map_cons, runState, List.foldl_cons] at *
    rw [show (applyOp s (StoreOp.assign c)) = assignGrant c s from rfl]
    rw [ih, mem_assignGrant]
    simp only [List.mem_cons]
    tauto

/-- Membership in the stored grant set after a successful reconciliation:
a codename is held afterwards iff it was submitted, or was held before and
is not in the removal set. -/
lemma mem_save_obj_perms (catalog : List Permission) (desired s : List String)
    (a : String) :
    a ∈ save_obj_perms catalog desired s ↔
      a ∈ desired ∨ (a ∈ s ∧ ¬(a ∈ model_perms catalog ∧ a ∉ desired)) := by
  unfold save_obj_perms reconcileTrace
  rw [runState_append, mem_runState_assigns, mem_runState_removes,
    mem_to_remove]
  tauto

/-- For a codename of the catalog, the state after reconciliation holds it
iff it was submitted — independently of the prior state. -/
lemma mem_save_of_mem_catalog (catalog : List Permission) (desired s : List String)
    (c : String) (hc : c ∈ model_perms catalog) :
    c ∈ save_obj_perms catalog desired s ↔ c ∈ desired := by
  rw [mem_save_obj_perms]
  tauto

lemma removeCodes_append (l₁ l₂ : List StoreOp) :
    removeCodes (l₁ ++ l₂) = removeCodes l₁ ++ removeCodes l₂ := by
  simp [removeCodes]

lemma assignCodes_append (l₁ l₂ : List StoreOp) :
    assignCodes (l₁ ++ l₂) = assignCodes l₁ ++ assignCodes l₂ := by
  simp [assignCodes]

lemma removeCodes_map_remove (L : List String) :
    removeCodes (L.map StoreOp.remove) = L := by
  induction L with
  | nil => rfl
  | cons c rest ih => simpa [removeCodes, List.filterMap_cons] using ih

lemma removeCodes_map_assign (L : List String) :
    removeCodes (L.map StoreOp.assign) = [] := by
  induction L with
  | nil => rfl
  | cons c rest ih =>
    simp only [removeCodes, List.filterMap_cons, List.map_cons] at *
    exact ih

lemma assignCodes_map_assign (L : List String) :
    assignCodes (L.map StoreOp.assign) = L := by
  induction L with
  | nil => rfl
  | cons c rest ih => simpa [assignCodes, List.filterMap_cons] using ih

lemma assignCodes_map_remove (L : List String) :
    assignCodes (L.map StoreOp.remove) = [] := by
  induction L with
  | nil => rfl
  | cons c rest ih =>
    simp only [assignCodes, List.filterMap_cons, List.map_cons] at *
    exact ih

lemma removeCodes_reconcileTrace (mp desired : List String) :
    removeCodes (reconcileTrace mp desired) = to_remove mp desired := by
  rw [reconcileTrace, removeCodes_append, removeCodes_map_remove,
    removeCodes_map_assign, List.append_nil]

lemma assignCodes_reconcileTrace (mp desired : List String) :
    assignCodes (reconcileTrace mp desired) = desired := by
  rw [reconcileTrace, assignCodes_append, assignCodes_map_remove,
    assignCodes_map_assign, List.nil_append]

lemma mem_remove_op_reconcileTrace (mp desired : List String) (c : String) :
    StoreOp.remove c ∈ reconcileTrace mp desired ↔ c ∈ to_remove mp desired := by
  simp [reconcileTrace]

lemma mem_assign_op_reconcileTrace (mp desired : List String) (c : String) :
    StoreOp.assign c ∈ reconcileTrace mp desired ↔ c ∈ desired := by
  simp [reconcileTrace]

lemma runState_removes_of_not_mem (L : List String) (t : List String)
    (h : ∀ c ∈ L, c ∉ t) : runState (L.map StoreOp.remove) t = t := by
  induction L with
  | nil => rfl
  | cons c rest ih =>
    simp only [List.map_cons, runState, List.foldl_cons]
    have hc : applyOp t (StoreOp.remove c) = t := by
      show removeGrant c t = t
      unfold removeGrant
      rw [List.filter_eq_self]
      intro a ha
      have : a ≠ c := by
        intro heq
        exact h c (by simp) (heq ▸ ha)
      simpa using this
    rw [hc]
    exact ih (fun d hd => h d (by simp [hd]))

lemma runState_assigns_of_mem (L : List String) (t : List String)
    (h : ∀ c ∈ L, c ∈ t) : runState (L.map StoreOp.assign) t = t := by
  induction L with
  | nil => rfl
  | cons c rest ih =>
    simp only [List.map_cons, runState, List.foldl_cons]
    have hc : applyOp t (StoreOp.assign c) = t := by
      show assignGrant c t = t
      unfold assignGrant
      rw [if_pos (h c (by simp))]
    rw [hc]
    exact ih (fun d hd => h d (by simp [hd]))

/-- C1: for every catalog and every desired set that is a subset of the
catalog's codenames, after `save_obj_perms` completes successfully against
the idempotent grant store, the stored grant set restricted to the
catalog's codenames is exactly the desired set. -/
theorem c1_reconcile_exact (catalog : List Permission) (desired s : List String)
    (hD : ∀ d ∈ desired, d ∈ model_perms catalog) (c : String) :
    (c ∈ save_obj_perms catalog desired s ∧ c ∈ model_perms catalog) ↔
      c ∈ desired := by
  constructor
  · rintro ⟨hr, hc⟩
    exact (mem_save_of_mem_catalog catalog desired s c hc).mp hr
  · intro hd
    have hc := hD c hd
    exact ⟨(mem_save_of_mem_catalog catalog desired s c hc).mpr hd, hc⟩

theorem c1_witness :
    ("b" ∈ save_obj_perms [Permission.mk "a" "A", Permission.mk "b" "B"]
        ["b"] ["a"] ∧
      "b" ∈ model_perms [Permission.mk "a" "A", Permission.mk "b" "B"]) ↔
      "b" ∈ ["b"] :=
  c1_reconcile_exact [Permission.mk "a" "A", Permission.mk "b" "B"]
    ["b"] ["a"] (by decide) "b"

/-- C2 as stated is false: the assign loop (forms.py line 144) iterates the
full submitted list, so a desired set containing a codename outside the
catalog makes the engine assign that out-of-catalog codename.  Concretely,
with catalog codenames `["a"]`, desired `["b"]` and empty prior state, the
trace contains `assign "b"` and the final state holds `"b"`, although
`"b"` is outside the catalog and was not held before. -/
theorem c2_counterexample :
    "b" ∉ model_perms [Permission.mk "a" "A"] ∧
    StoreOp.assign "b" ∈ reconcileTrace (model_perms [Permission.mk "a" "A"]) ["b"] ∧
    "b" ∉ ([] : List String) ∧
    "b" ∈ save_obj_perms [Permission.mk "a" "A"] ["b"] [] := by
  decide

/-- C2 amended: provided the desired set is a subset of the catalog's
codenames (which form validation guarantees for `cleaned_data`), a
reconcile call neither assigns nor removes any grant whose codename is
outside the catalog: no emitted store call targets such a codename, and
such grants are untouched in the stored state. -/
theorem c2_frame (catalog : List Permission) (desired s : List String)
    (hD : ∀ d ∈ desired, d ∈ model_perms catalog)
    (c : String) (hc : c ∉ model_perms catalog) :
    (c ∈ save_obj_perms catalog desired s ↔ c ∈ s) ∧
    (∀ op ∈ reconcileTrace (model_perms catalog) desired,
      op ≠ StoreOp.remove c ∧ op ≠ StoreOp.assign c) := by
  have hcd : c ∉ desired := fun hd => hc (hD c hd)
  refine ⟨?_, ?_⟩
  · rw [mem_save_obj_perms]
    constructor
    · rintro (hd | ⟨hs, _⟩)
      · exact absurd hd hcd
      · exact hs
    · intro hs
      exact Or.inr ⟨hs, fun hmp => hc hmp.1⟩
  · intro op hop
    constructor
    · rintro rfl
      rw [mem_remove_op_reconcileTrace, mem_to_remove] at hop
      exact hc hop.1
    · rintro rfl
      rw [mem_assign_op_reconcileTrace] at hop
      exact hcd hop

theorem c2_frame_witness :
    ("x" ∈ save_obj_perms [Permission.mk "a" "A"] ["a"] ["x"] ↔
      "x" ∈ ["x"]) ∧
    (StoreOp.assign "a" ≠ StoreOp.remove "x" ∧
      StoreOp.assign "a" ≠ StoreOp.assign "x") :=
  ⟨(c2_frame [Permission.mk "a" "A"] ["a"] ["x"] (by decide) "x" (by decide)).1,
    (c2_frame [Permission.mk "a" "A"] ["a"] ["x"] (by decide) "x" (by decide)).2
      (StoreOp.assign "a") (by decide)⟩

/-- C4: the engine computes the removal set as (catalog codenames) minus
desired — each such codename appearing exactly once among the remove calls
and no other codename ever removed — and the list of assigned codenames is
the full submitted desired list, one assign call per element. -/
theorem c4_diff_sets (catalog : List Permission) (desired : List String) :
    (∀ c, c ∈ removeCodes (reconcileTrace (model_perms catalog) desired) ↔
      (c ∈ model_perms catalog ∧ c ∉ desired)) ∧
    (∀ c, (removeCodes (reconcileTrace (model_perms catalog) desired)).count c =
      if c ∈ model_perms catalog ∧ c ∉ desired then 1 else 0) ∧
    assignCodes (reconcileTrace (model_perms catalog) desired) = desired := by
  rw [removeCodes_reconcileTrace, assignCodes_reconcileTrace]
  refine ⟨fun c => mem_to_remove _ _ c, fun c => ?_, rfl⟩
  by_cases h : c ∈ model_perms catalog ∧ c ∉ desired
  · rw [if_pos h]
    exact List.count_eq_one_of_mem (nodup_to_remove _ _)
      ((mem_to_remove _ _ c).mpr h)
  · rw [if_neg h]
    exact List.count_eq_zero_of_not_mem
      (fun hm => h ((mem_to_remove _ _ c).mp hm))

theorem c4_witness :
    (removeCodes (reconcileTrace (model_perms [Permission.mk "a" "A"]) [])).count "a" =
      if "a" ∈ model_perms [Permission.mk "a" "A"] ∧ "a" ∉ ([] : List String)
      then 1 else 0 :=
  (c4_diff_sets [Permission.mk "a" "A"] []).2.1 "a"

/-- C5: reconciliation is idempotent at the state level — running
`save_obj_perms` a second time with the same desired set against the
idempotent grant store leaves the stored grant set unchanged. -/
theorem c5_idempotent (catalog : List Permission) (desired s : List String) :
    save_obj_perms catalog desired (save_obj_perms catalog desired s) =
      save_obj_perms catalog desired s := by
  set t := save_obj_perms catalog desired s with ht
  show runState (reconcileTrace (model_perms catalog) desired) t = t
  unfold reconcileTrace
  rw [runState_append]
  rw [runState_removes_of_not_mem _ _ ?_]
  · exact runState_assigns_of_mem _ _ (fun c hc => by
      rw [ht, mem_save_obj_perms]
      exact Or.inl hc)
  · intro c hcr
    rw [mem_to_remove] at hcr
    rw [ht, mem_save_obj_perms]
    rintro (hd | ⟨_, hno⟩)
    · exact hcr.2 hd
    · exact hno hcr

/-- C6: no hysteresis — after applying desired sets in sequence with the
same catalog, the catalog-scoped stored grant set depends only on the last
desired set: two runs with different first desired sets and different
initial states agree on every catalog codename. -/
theorem c6_no_hysteresis (catalog : List Permission)
    (d1 d1' d2 s s' : List String) (c : String)
    (hc : c ∈ model_perms catalog) :
    (c ∈ save_obj_perms catalog d2 (save_obj_perms catalog d1 s) ↔
      c ∈ save_obj_perms catalog d2 (save_obj_perms catalog d1' s')) := by
  rw [mem_save_of_mem_catalog _ _ _ _ hc, mem_save_of_mem_catalog _ _ _ _ hc]

theorem c6_witness :
    ("a" ∈ save_obj_perms [Permission.mk "a" "A"] ["a"]
        (save_obj_perms [Permission.mk "a" "A"] [] []) ↔
      "a" ∈ save_obj_perms [Permission.mk "a" "A"] ["a"]
        (save_obj_perms [Permission.mk "a" "A"] ["a"] ["a"])) :=
  c6_no_hysteresis [Permission.mk "a" "A"] [] ["a"] ["a"] [] ["a"] "a" (by decide)

/-- C7: the removal set and the assignment set of one invocation are
disjoint: a codename in the removal set is never in the desired set, and
no single trace both removes and assigns the same codename. -/
theorem c7_disjoint (catalog : List Permission) (desired : List String)
    (c : String) :
    (c ∈ to_remove (model_perms catalog) desired → c ∉ desired) ∧
    ¬(StoreOp.remove c ∈ reconcileTrace (model_perms catalog) desired ∧
      StoreOp.assign c ∈ reconcileTrace (model_perms catalog) desired) := by
  constructor
  · intro hr
    exact ((mem_to_remove _ _ c).mp hr).2
  · rintro ⟨hr, ha⟩
    rw [mem_remove_op_reconcileTrace, mem_to_remove] at hr
    rw [mem_assign_op_reconcileTrace] at ha
    exact hr.2 ha

theorem c7_witness :
    "a" ∉ ["b"] ∧
    ¬(StoreOp.remove "a" ∈ reconcileTrace (model_perms [Permission.mk "a" "A"]) ["b"] ∧
      StoreOp.assign "a" ∈ reconcileTrace (model_perms [Permission.mk "a" "A"]) ["b"]) :=
  ⟨(c7_disjoint [Permission.mk "a" "A"] ["b"] "a").1 (by decide),
    (c7_disjoint [Permission.mk "a" "A"] ["b"] "a").2⟩

/-- C9: within one invocation every remove call precedes every assign
call: the emitted trace is exactly its remove calls followed by its assign
calls. -/
theorem c9_removes_before_assigns (catalog : List Permission)
    (desired : List String) :
    reconcileTrace (model_perms catalog) desired =
      (removeCodes (reconcileTrace (model_perms catalog) desired)).map
        StoreOp.remove ++
      (assignCodes (reconcileTrace (model_perms catalog) desired)).map
        StoreOp.assign := by
  rw [removeCodes_reconcileTrace, assignCodes_reconcileTrace]
  rfl

/-- C10: every remove call of any invocation — even for a desired set that
is not a subset of the catalog — carries a codename of the catalog, so a
grant whose codename the catalog does not define is never revoked: if held
before, it is still held after. -/
theorem c10_removes_within_catalog (catalog : List Permission)
    (desired s : List String) (c : String) :
    (∀ d ∈ removeCodes (reconcileTrace (model_perms catalog) desired),
      d ∈ model_perms catalog) ∧
    (c ∉ model_perms catalog → c ∈ s →
      c ∈ save_obj_perms catalog desired s) := by
  constructor
  · intro d hd
    rw [removeCodes_reconcileTrace, mem_to_remove] at hd
    exact hd.1
  · intro hc hs
    rw [mem_save_obj_perms]
    exact Or.inr ⟨hs, fun hmp => hc hmp.1⟩

lemma runStateE_append_fail (fails : StoreOp → Bool) (pre : List StoreOp) :
    ∀ (post : List StoreOp) (op : StoreOp) (s : List String),
    (∀ o ∈ pre, fails o = false) → fails op = true →
    runStateE fails (pre ++ op :: post) s = (runState pre s, some op) := by
  induction pre with
  | nil =>
    intro post op s _ hop
    simp only [List.nil_append, runStateE]
    rw [if_pos hop]
    rfl
  | cons o rest ih =>
    intro post op s hpre hop
    have ho : fails o = false := hpre o (by simp)
    simp only [List.cons_append, runStateE]
    rw [if_neg (by simp [ho])]
    have : runState (o :: rest) s = runState rest (applyOp s o) := rfl
    rw [this]
    exact ih post op (applyOp s o) (fun x hx => hpre x (by simp [hx])) hop

/-- C3: if one store call of a reconcile invocation raises, the engine
issues no further store calls in that invocation and surfaces the failing
call; the mutations applied by the calls before it remain in place.  Here
`fails` marks which store calls raise, the trace is split as the
successful prefix `pre`, the failing call `op`, and the abandoned rest. -/
theorem c3_abort_on_failure (catalog : List Permission) (desired s : List String)
    (fails : StoreOp → Bool) (pre post : List StoreOp) (op : StoreOp)
    (htr : reconcileTrace (model_perms catalog) desired = pre ++ op :: post)
    (hpre : ∀ o ∈ pre, fails o = false) (hop : fails op = true) :
    runStateE fails (reconcileTrace (model_perms catalog) desired) s =
      (runState pre s, some op) := by
  rw [htr]
  exact runStateE_append_fail fails pre post op s hpre hop

theorem c3_witness :
    runStateE (fun op => decide (op = StoreOp.remove "a"))
      (reconcileTrace
        (model_perms [Permission.mk "a" "A", Permission.mk "b" "B"]) ["b"])
      ["a", "b"] =
    (["a", "b"], some (StoreOp.remove "a")) :=
  c3_abort_on_failure [Permission.mk "a" "A", Permission.mk "b" "B"] ["b"]
    ["a", "b"] (fun op => decide (op = StoreOp.remove "a"))
    [] [StoreOp.assign "b"] (StoreOp.remove "a")
    (by decide) (by decide) (by decide)

theorem c10_witness :
    "a" ∈ model_perms [Permission.mk "a" "A"] ∧
    "x" ∈ save_obj_perms [Permission.mk "a" "A"] ["b"] ["x"] :=
  ⟨(c10_removes_within_catalog [Permission.mk "a" "A"] ["b"] ["x"] "x").1
      "a" (by decide),
    (c10_removes_within_catalog [Permission.mk "a" "A"] ["b"] ["x"] "x").2
      (by decide) (by decide)⟩

/-- A candidate principal of the "add" form variants, identified by a
stable id (the database primary key). -/
structure Principal where
  id : Nat
deriving DecidableEq, Repr

/-- Failure of principal resolution. -/
inductive FormError where
  | notFound
deriving DecidableEq, Repr

/-- Modelled from the spec: principal resolution for the "add" form
variants (`AddUserObjectPermissionsForm.get_user_field` selecting from
`get_user_queryset()`, and the group analogue) is performed by the
framework's model-choice field, which is outside the analysed source; per
§4.4, `resolvePrincipal(candidateSet, selectedId)` returns the matching
principal from the candidate set and fails with `NotFoundError` when
`selectedId` is not in the candidate set. -/
def resolvePrincipal (candidates : List Principal) (selectedId : Nat) :
    Except FormError Principal :=
  match candidates.find? (fun p => p.id == selectedId) with
  | some p => Except.ok p
  | none => Except.error FormError.notFound

/-- `AddUserObjectPermissionsForm.save_obj_perms` (forms.py lines
211-227): the resolved principal from `cleaned_data` is the one carried by
every `remove_perm` and `assign` call of the invocation. -/
def add_save_obj_perms (candidates : List Principal) (selectedId : Nat)
    (catalog : List Permission) (desired : List String) :
    Except FormError (List (Principal × StoreOp)) :=
  match resolvePrincipal candidates selectedId with
  | Except.error e => Except.error e
  | Except.ok u =>
    Except.ok ((reconcileTrace (model_perms catalog) desired).map
      (fun op => (u, op)))

/-- C8: principal resolution fails with `NotFoundError` exactly when the
selected id is not among the candidates' ids; on success it returns the
unique candidate with the selected id, and that principal is the one
carried by every store call of the subsequent reconcile invocation. -/
theorem c8_resolve_principal (candidates : List Principal) (selectedId : Nat)
    (catalog : List Permission) (desired : List String)
    (hids : (candidates.map Principal.id).Nodup) :
    (resolvePrincipal candidates selectedId = Except.error FormError.notFound ↔
      selectedId ∉ candidates.map Principal.id) ∧
    (∀ p, resolvePrincipal candidates selectedId = Except.ok p →
      p ∈ candidates ∧ p.id = selectedId ∧
      (∀ q ∈ candidates, q.id = selectedId → q = p) ∧
      (∀ tr, add_save_obj_perms candidates selectedId catalog desired =
          Except.ok tr → ∀ x ∈ tr, x.1 = p)) := by
  constructor
  · unfold resolvePrincipal
    cases h : candidates.find? (fun p => p.id == selectedId) with
    | none =>
      simp only [true_iff]
      rw [List.find?_eq_none] at h
      intro hmem
      rw [List.mem_map] at hmem
      obtain ⟨p, hp, hid⟩ := hmem
      exact absurd (by simp [hid]) (h p hp)
    | some p =>
      constructor
      · intro habs
        exact absurd habs (by simp)
      · intro hmem
        have hid : p.id = selectedId := by
          have := List.find?_some h
          simpa using this
        exact absurd (List.mem_map.mpr
          ⟨p, List.mem_of_find?_eq_some h, hid⟩) hmem
  · intro p hp
    unfold resolvePrincipal at hp
    cases h : candidates.find? (fun q => q.id == selectedId) with
    | none => rw [h] at hp; exact absurd hp (by simp)
    | some q =>
      rw [h] at hp
      have hqp : q = p := by simpa using hp
      subst hqp
      have hmem : q ∈ candidates := List.mem_of_find?_eq_some h
      have hid : q.id = selectedId := by
        have := List.find?_some h
        simpa using this
      refine ⟨hmem, hid, ?_, ?_⟩
      · intro r hr hrid
        exact List.inj_on_of_nodup_map hids hr hmem (by rw [hrid, hid])
      · intro tr htr x hx
        unfold add_save_obj_perms resolvePrincipal at htr
        rw [h] at htr
        have htr' : (reconcileTrace (model_perms catalog) desired).map
            (fun op => (q, op)) = tr := by simpa using htr
        rw [← htr'] at hx
        rw [List.mem_map] at hx
        obtain ⟨op, _, hxeq⟩ := hx
        rw [← hxeq]

theorem c8_witness :
    resolvePrincipal [Principal.mk 1, Principal.mk 2] 3 =
        Except.error FormError.notFound ↔
      3 ∉ ([Principal.mk 1, Principal.mk 2].map Principal.id) :=
  (c8_resolve_principal [Principal.mk 1, Principal.mk 2] 3
    [Permission.mk "a" "A"] ["a"] (by decide)).1

end Guardian
